import Mathlib

/-!
# Verification of the gait segmentation algorithm

Shallow embedding of `src/software/raspberry-pi/gait_segmentation.py`
(`segment_gait` and `_empty_result`) and proofs about it.

Modelling conventions:

* Python floats are modelled by `ℚ` (exact arithmetic). All constants of the
  algorithm (0.02, 2.0, 0.3, 0.6, 0.4, 0.5, 5.0, ...) are exactly
  representable and all additions/comparisons performed by the algorithm on
  them behave identically, so the branch structure is preserved.
* The transcendental spectral step (lines 73-78 of the source: mean removal,
  Hann taper, `np.fft.rfft`, `np.abs`) cannot be computed in `ℚ`.  It is
  abstracted as a parameter `sp : List ℚ → List ℚ` mapping a raw window to
  its magnitude spectrum; every theorem about the pipeline quantifies over
  `sp`, so it holds in particular for the true spectrum function.  The bin
  selection logic downstream of the spectrum (source lines 80-94) is
  embedded concretely in `dominantFrequency`.
* `np.std(moving_variances) > 0` and
  `abs(v - mean) / np.std(moving_variances) > variance_threshold`
  (source lines 107-109) involve a square root.  Since `std = sqrt(var)`
  with `var ≥ 0`, they are encoded over `ℚ` by the algebraically equivalent
  `0 < pvariance` and `t < 0 ∨ t^2 * pvariance < (v - mean)^2`
  (for `σ > 0`: `|d|/σ > t` iff `t < 0` or `d^2 > t^2·σ^2`).
* Python `int()` truncates toward zero; `pyTrunc` embeds it.
* `range(start, stop, step)` is embedded by `pyRange` over an integer `stop`
  (the Python expression `len(magnitude) - window_size + 1` can be ≤ 0).
  Python raises `ValueError` on `step = 0` (i.e. `sample_rate ≤ 1`); the
  embedding returns `[]` there and theorems about the windowed pipeline carry
  the hypothesis `2 ≤ sample_rate` so that no claim rests on that corner.
* The three parallel candidate lists of the source are bundled into a list
  of `Cand` records (index, type string, confidence).
-/

namespace GaitSeg

/-- Python `int()` applied to a rational: truncation toward zero. -/
def pyTrunc (q : ℚ) : ℤ := if 0 ≤ q then ⌊q⌋ else ⌈q⌉

/-- `np.mean`: arithmetic mean of a list (0 for the empty list, which the
source never takes a mean of on a path that uses the value). -/
def mean (l : List ℚ) : ℚ := l.sum / l.length

/-- `np.var` / (`np.std`)²: population variance (`ddof = 0`). -/
def pvar (l : List ℚ) : ℚ := (l.map (fun x => (x - mean l) ^ 2)).sum / l.length

/-- Python `range(0, stop, step)` for a possibly non-positive `stop`:
`0, step, 2*step, ...` strictly below `stop`.  Empty for `step = 0`
(Python raises there; see the header notes). -/
def pyRange (stop : ℤ) (step : ℕ) : List ℕ :=
  if 0 < stop ∧ 0 < step then
    (List.range ((stop.toNat + step - 1) / step)).map (· * step)
  else []

/-- `float(bool)`. -/
def bq (b : Bool) : ℚ := if b then 1 else 0

/-- `int(bool)` (for `astype(int)` in `np.diff`). -/
def b2i (b : Bool) : ℤ := if b then 1 else 0

/-- The configuration arguments of `segment_gait`. -/
structure Cfg where
  sampleRate : ℕ
  movementThreshold : ℚ
  varianceThreshold : ℚ
  frequencyThreshold : ℚ
  minSegmentSeconds : ℚ
deriving DecidableEq

/-- The `params` echo dictionary of the result. -/
structure ParamsEcho where
  movementThreshold : ℚ
  varianceThreshold : ℚ
  frequencyThreshold : ℚ
  minSegmentSeconds : ℚ
deriving DecidableEq

/-- The result dictionary of `segment_gait`. -/
structure SegResult where
  boundaries : List ℕ
  times : List ℚ
  types : List String
  durations : List ℚ
  confidence : List ℚ
  count : ℕ
  params : ParamsEcho
deriving DecidableEq

/-- One raw/final boundary candidate: the source keeps three parallel lists
(`*_boundaries`, `*_types`, `*_confidence`); we bundle each triple. -/
structure Cand where
  idx : ℕ
  ty : String
  conf : ℚ
deriving DecidableEq

/-- Default `Cand` (used only as the default of `getLastD`; never produced). -/
def dCand : Cand := ⟨0, "", 0⟩

/-- `min_samples = int(min_segment_seconds * sample_rate)` (line 42). -/
def minSamples (cfg : Cfg) : ℤ := pyTrunc (cfg.minSegmentSeconds * cfg.sampleRate)

/-- Window start indices (line 49):
`range(0, len(mag) - window_size + 1, window_step)` with
`window_size = sample_rate`, `window_step = sample_rate // 2`. -/
def wStarts (cfg : Cfg) (mag : List ℚ) : List ℕ :=
  pyRange ((mag.length : ℤ) - cfg.sampleRate + 1) (cfg.sampleRate / 2)

/-- Number of windows. -/
def numWindows (cfg : Cfg) (mag : List ℚ) : ℕ := (wStarts cfg mag).length

/-- The windows themselves: `mag[i : i + window_size]` (line 50). -/
def wSlices (cfg : Cfg) (mag : List ℚ) : List (List ℚ) :=
  (wStarts cfg mag).map (fun i => (mag.drop i).take cfg.sampleRate)

/-- Window centers: `i + window_size // 2` (line 53). -/
def wCenters (cfg : Cfg) (mag : List ℚ) : List ℕ :=
  (wStarts cfg mag).map (fun i => i + cfg.sampleRate / 2)

/-- Per-window population variances (line 60). -/
def wVariances (cfg : Cfg) (mag : List ℚ) : List ℚ :=
  (wSlices cfg mag).map pvar

/-- `is_moving = variances > movement_threshold` (line 63). -/
def movingFlags (cfg : Cfg) (mag : List ℚ) : List Bool :=
  (wVariances cfg mag).map (fun v => decide (cfg.movementThreshold < v))

/-- `movement_changes = np.diff(is_moving.astype(int))` (line 66). -/
def movementChanges (cfg : Cfg) (mag : List ℚ) : List ℤ :=
  (List.range (numWindows cfg mag - 1)).map (fun j =>
    b2i ((movingFlags cfg mag).getD (j + 1) false) -
      b2i ((movingFlags cfg mag).getD j false))

/-- Frequency of FFT bin `k`: `np.fft.rfftfreq(n, 1/sample_rate)[k] = k*sr/n`. -/
def fqBin (n sr k : ℕ) : ℚ := ((k * sr : ℕ) : ℚ) / n

/-- Whether bin `k` lies in the gait band `[0.5 Hz, 5.0 Hz]` (line 83). -/
def inBandB (n sr k : ℕ) : Bool := decide (1/2 ≤ fqBin n sr k ∧ fqBin n sr k ≤ 5)

/-- The indices of the spectrum bins inside the gait band, in increasing
frequency order. -/
def bandIdxs (n sr : ℕ) : List ℕ := (List.range (n / 2 + 1)).filter (inBandB n sr)

/-- Maximum of a list of rationals (0 for `[]`, never taken there). -/
def listMax : List ℚ → ℚ
  | [] => 0
  | [x] => x
  | x :: y :: ys => max x (listMax (y :: ys))

/-- First index of the maximum of a list (`np.argmax`; 0 for `[]`): the head
if nothing later is strictly greater, else one past the first maximum of the
tail. -/
def argmaxIdx : List ℚ → ℕ
  | [] => 0
  | [_] => 0
  | x :: y :: ys => if x < listMax (y :: ys) then argmaxIdx (y :: ys) + 1 else 0

/-- The largest magnitude among the band bins of a spectrum. -/
def bandMax (fftMag : List ℚ) (n sr : ℕ) : ℚ :=
  listMax ((bandIdxs n sr).map (fun k => fftMag.getD k 0))

/-- Dominant-frequency selection from a magnitude spectrum `fftMag` of a
window of length `n` (source lines 80-94): compute the bin frequencies,
mask to the band `[0.5, 5.0]`, zero the spectrum outside the mask
(`valid_fft[~valid_mask] = 0`), and report the frequency of the bin that
`np.argmax` finds; 0.0 when the spectrum has ≤ 1 bin or no bin is in band.
(`len(fft_mag) = n//2 + 1` holds for the true `rfft`; the masking by index
coincides with numpy's boolean-mask assignment under that length.) -/
def dominantFrequency (fftMag : List ℚ) (n sr : ℕ) : ℚ :=
  if 1 < fftMag.length then
    let freqBins := (List.range (n / 2 + 1)).map (fqBin n sr)
    let validMask := freqBins.map (fun f => decide (1/2 ≤ f ∧ f ≤ 5))
    if validMask.any id then
      let validFft := (List.range fftMag.length).map (fun k =>
        if validMask.getD k false then fftMag.getD k 0 else 0)
      freqBins.getD (argmaxIdx validFft) 0
    else 0
  else 0

/-- Modelled from the spec: the spec's own description of the dominant
frequency (§4.4 steps 4-5 / claim C4) — restrict the bins to the closed band
`[0.5 Hz, 5.0 Hz]`; if no bin falls in the band the result is 0.0,
otherwise the frequency of the bin of maximum magnitude within the band,
ties broken by lowest frequency (first occurrence of the maximum in
increasing-frequency order).  Used only to compare against
`dominantFrequency`, the embedding of the code. -/
def dominantFrequencySpec (fftMag : List ℚ) (n sr : ℕ) : ℚ :=
  let idxs := bandIdxs n sr
  if idxs.isEmpty then 0
  else fqBin n sr (idxs.getD (argmaxIdx (idxs.map (fun k => fftMag.getD k 0))) 0)

/-- Per-window dominant frequencies (lines 69-96): 0.0 for stationary
windows, otherwise the selection applied to the window's magnitude
spectrum `sp w` (the abstracted Hann/rfft stage, see header). -/
def freqList (sp : List ℚ → List ℚ) (cfg : Cfg) (mag : List ℚ) : List ℚ :=
  ((wSlices cfg mag).zip (movingFlags cfg mag)).map (fun wm =>
    if wm.2 then dominantFrequency (sp wm.1) wm.1.length cfg.sampleRate else 0)

/-- `moving_variances = variances[is_moving]` (line 106). -/
def movingVars (cfg : Cfg) (mag : List ℚ) : List ℚ :=
  (((wVariances cfg mag).zip (movingFlags cfg mag)).filter (fun p => p.2)).map
    (fun p => p.1)

/-- `var_change` for window `i` (lines 106-111), with the square-root-free
encoding of the z-score comparison described in the header. -/
def varChangeB (cfg : Cfg) (mag : List ℚ) (i : ℕ) : Bool :=
  let mv := movingVars cfg mag
  if 1 < mv.length ∧ 0 < pvar mv then
    decide (cfg.varianceThreshold < 0 ∨
      cfg.varianceThreshold ^ 2 * pvar mv <
        ((wVariances cfg mag).getD i 0 - mean mv) ^ 2)
  else false

/-- `freq_change` for window `i` (line 114). -/
def freqChangeB (sp : List ℚ → List ℚ) (cfg : Cfg) (mag : List ℚ) (i : ℕ) : Bool :=
  decide (cfg.frequencyThreshold <
    |(freqList sp cfg mag).getD i 0 - (freqList sp cfg mag).getD (i - 1) 0|)

/-- `gait_change_score` (lines 100-117): zero except when window `i ≥ 1` and
window `i-1` are both moving, where it is
`0.6 * float(var_change) + 0.4 * float(freq_change)`. -/
def gaitScores (sp : List ℚ → List ℚ) (cfg : Cfg) (mag : List ℚ) : List ℚ :=
  (List.range (numWindows cfg mag)).map (fun i =>
    if 1 ≤ i ∧ (movingFlags cfg mag).getD i false = true ∧
        (movingFlags cfg mag).getD (i - 1) false = true then
      6/10 * bq (varChangeB cfg mag i) + 4/10 * bq (freqChangeB sp cfg mag i)
    else 0)

/-- Body of the boundary-building loop (lines 129-142) at window `i`:
a movement-state change (checked first) emits a confidence-1.0 candidate of
the window's type; otherwise a gait score `> 0.4` emits a `"moving"`
candidate carrying the score; otherwise nothing. -/
def rawCandAt (sp : List ℚ → List ℚ) (cfg : Cfg) (mag : List ℚ) (i : ℕ) :
    Option Cand :=
  if 0 < i ∧ (movementChanges cfg mag).getD (i - 1) 0 ≠ 0 then
    some ⟨(wCenters cfg mag).getD i 0,
      if (movingFlags cfg mag).getD i false then "moving" else "stationary", 1⟩
  else if 4/10 < (gaitScores sp cfg mag).getD i 0 then
    some ⟨(wCenters cfg mag).getD i 0, "moving", (gaitScores sp cfg mag).getD i 0⟩
  else none

/-- The raw candidate list (lines 120-142): the seed boundary at 0 typed by
the first window, then the loop's emissions in window order. -/
def rawCands (sp : List ℚ → List ℚ) (cfg : Cfg) (mag : List ℚ) : List Cand :=
  ⟨0, if (movingFlags cfg mag).getD 0 false then "moving" else "stationary", 1⟩ ::
    (List.range (numWindows cfg mag)).filterMap (rawCandAt sp cfg mag)

/-- One step of the merge pass (lines 149-163), acting on the running
`final` list (never empty in the source; the `[]` guard only makes the
function total).  `acc.getLastD dCand` is `final[-1]`. -/
def mergeStep (ms : ℤ) (acc : List Cand) (c : Cand) : List Cand :=
  if acc = [] then [c]
  else if ms ≤ (c.idx : ℤ) - ((acc.getLastD dCand).idx : ℤ) then acc ++ [c]
  else if (c.ty ≠ (acc.getLastD dCand).ty ∨
      (c.ty = "stationary" ∧ (acc.getLastD dCand).ty = "moving") ∨
      (c.ty = "moving" ∧ (acc.getLastD dCand).ty = "stationary")) ∨
    (acc.getLastD dCand).conf < c.conf then
    acc.dropLast ++ [c]
  else acc

/-- The merge pass (lines 145-163): seed with the first raw candidate, fold
the rest through `mergeStep`. -/
def mergeAll (ms : ℤ) : List Cand → List Cand
  | [] => []
  | c :: cs => cs.foldl (mergeStep ms) [c]

/-- The final candidate list of the pipeline. -/
def finalCands (sp : List ℚ → List ℚ) (cfg : Cfg) (mag : List ℚ) : List Cand :=
  mergeAll (minSamples cfg) (rawCands sp cfg mag)

/-- `_empty_result` (lines 192-213). -/
def emptyResult (cfg : Cfg) (mag : List ℚ) : SegResult :=
  let var : ℚ := if 0 < mag.length then pvar mag else 0
  { boundaries := [0]
    times := [0]
    types := [if cfg.movementThreshold < var then "moving" else "stationary"]
    durations := [(mag.length : ℚ) / cfg.sampleRate]
    confidence := [1]
    count := 1
    params := ⟨cfg.movementThreshold, cfg.varianceThreshold,
      cfg.frequencyThreshold, cfg.minSegmentSeconds⟩ }

/-- Assembly of the result record in the long path (lines 165-189). -/
def fullResult (sp : List ℚ → List ℚ) (cfg : Cfg) (mag : List ℚ) : SegResult :=
  let fc := finalCands sp cfg mag
  let fb := fc.map (fun c => c.idx)
  { boundaries := fb
    times := fb.map (fun b => (b : ℚ) / cfg.sampleRate)
    types := fc.map (fun c => c.ty)
    durations := (List.range fb.length).map (fun i =>
      if i < fb.length - 1 then
        ((fb.getD (i + 1) 0 : ℚ) - (fb.getD i 0 : ℚ)) / cfg.sampleRate
      else ((mag.length : ℚ) - (fb.getD i 0 : ℚ)) / cfg.sampleRate)
    confidence := fc.map (fun c => c.conf)
    count := fb.length
    params := ⟨cfg.movementThreshold, cfg.varianceThreshold,
      cfg.frequencyThreshold, cfg.minSegmentSeconds⟩ }

/-- `segment_gait` (lines 13-189). -/
def segmentGait (sp : List ℚ → List ℚ) (cfg : Cfg) (mag : List ℚ) : SegResult :=
  if mag.length < cfg.sampleRate * 2 then emptyResult cfg mag
  else if (wSlices cfg mag).length < 2 then emptyResult cfg mag
  else fullResult sp cfg mag

/-- The default configuration of `segment_gait` at a given sample rate:
`movement_threshold = 0.02`, `variance_threshold = 2.0`,
`frequency_threshold = 0.3`, `min_segment_seconds = 2.0`. -/
def cfgD (sr : ℕ) : Cfg := ⟨sr, 1/50, 2, 3/10, 2⟩

/-- A concrete spectrum function (used to instantiate witnesses). -/
def sp0 : List ℚ → List ℚ := fun _ => []

/-! ## IEEE-style non-finite values (for claim C8)

The source performs no finiteness validation; to show what it does on a
series containing `NaN` we re-embed the arithmetic of the short-input path
over values that may be `NaN`, with IEEE semantics: `NaN` propagates through
arithmetic and every comparison against it is `False`. -/

/-- A Python float that is either finite (a rational) or `NaN`. -/
inductive PFloat where
  | nan : PFloat
  | fin : ℚ → PFloat
deriving DecidableEq

/-- IEEE addition (`NaN` propagates). -/
def pAdd : PFloat → PFloat → PFloat
  | .fin a, .fin b => .fin (a + b)
  | _, _ => .nan

/-- IEEE subtraction (`NaN` propagates). -/
def pSub : PFloat → PFloat → PFloat
  | .fin a, .fin b => .fin (a - b)
  | _, _ => .nan

/-- IEEE multiplication (`NaN` propagates). -/
def pMul : PFloat → PFloat → PFloat
  | .fin a, .fin b => .fin (a * b)
  | _, _ => .nan

/-- Division by a (positive) integer count, as in a mean. -/
def pDivNat : PFloat → ℕ → PFloat
  | .fin a, n => if n = 0 then .nan else .fin (a / n)
  | .nan, _ => .nan

/-- `np.sum` over possibly-`NaN` values. -/
def pSum (l : List PFloat) : PFloat := l.foldl pAdd (.fin 0)

/-- `np.mean` over possibly-`NaN` values. -/
def pMean (l : List PFloat) : PFloat := pDivNat (pSum l) l.length

/-- `np.var` (population) over possibly-`NaN` values: any `NaN` in the list
makes the result `NaN`. -/
def pVar (l : List PFloat) : PFloat :=
  pMean (l.map (fun x => pMul (pSub x (pMean l)) (pSub x (pMean l))))

/-- IEEE `>` against a finite threshold: `False` whenever the left side is
`NaN`. -/
def pGt : PFloat → ℚ → Bool
  | .fin a, t => decide (t < a)
  | .nan, _ => false

/-- `_empty_result` over possibly-`NaN` magnitudes (lines 192-213): the
variance, and with it the segment type, is computed with IEEE semantics;
every other field is unaffected by `NaN` values. -/
def emptyResultF (cfg : Cfg) (mag : List PFloat) : SegResult :=
  let var : PFloat := if 0 < mag.length then pVar mag else .fin 0
  { boundaries := [0]
    times := [0]
    types := [if pGt var cfg.movementThreshold then "moving" else "stationary"]
    durations := [(mag.length : ℚ) / cfg.sampleRate]
    confidence := [1]
    count := 1
    params := ⟨cfg.movementThreshold, cfg.varianceThreshold,
      cfg.frequencyThreshold, cfg.minSegmentSeconds⟩ }

/-- `segment_gait` over possibly-`NaN` magnitudes, restricted to the
short-input branch (line 34): `segment_gait` performs no validation at entry
(lines 13-39), so a short series containing `NaN` flows directly into
`_empty_result`.  The long pipeline branch is reported as `none` here — it is
not needed to settle C8, whose failing input is short — so `some r` means
"the code returns the record `r` (and in particular raises nothing)". -/
def segmentGaitF (cfg : Cfg) (mag : List PFloat) : Option SegResult :=
  if mag.length < cfg.sampleRate * 2 then some (emptyResultF cfg mag) else none

/-! ## Concrete inputs used by counterexamples and witnesses -/

/-- 8 samples at `sample_rate = 4`: two seconds of data, exactly the
`len(magnitude) < sample_rate * 2` limit, 3 windows.  Windows 0 and 1 are
stationary, window 2 moving, so a movement transition is emitted at window
center 6, closer than `min_samples = 8` to the seed boundary 0, which it
overwrites. -/
def mag8 : List ℚ := [0, 0, 0, 0, 0, 0, 9, 0]

/-- 24 samples at `sample_rate = 4`: stationary until a movement transition
at window center 20, which is farther than `min_samples = 8` from the seed
boundary, so the final list keeps both boundaries. -/
def mag24 : List ℚ := List.replicate 20 0 ++ [9, 0, 0, 0]

/-- 8 samples at `sample_rate = 4` where all three windows are moving. -/
def magMov : List ℚ := [0, 9, 0, 0, 0, 9, 0, 0]

/-! ## Theorems -/

/-- The source's overwrite condition (lines 157-160) is its first disjunct:
the two extra disjuncts each imply `c.ty ≠ last.ty`. -/
theorem merge_overwrite_iff (c last : Cand) :
    ((c.ty ≠ last.ty ∨ (c.ty = "stationary" ∧ last.ty = "moving") ∨
        (c.ty = "moving" ∧ last.ty = "stationary")) ∨ last.conf < c.conf) ↔
      (c.ty ≠ last.ty ∨ last.conf < c.conf) := by
  constructor
  · rintro (h | h)
    · rcases h with h | ⟨h1, h2⟩ | ⟨h1, h2⟩
      · exact Or.inl h
      · exact Or.inl (by rw [h1, h2]; decide)
      · exact Or.inl (by rw [h1, h2]; decide)
    · exact Or.inr h
  · rintro (h | h)
    · exact Or.inl (Or.inl h)
    · exact Or.inr h

/-- C3: in the merge pass, a subsequent raw candidate `c` is appended as a
new boundary when `c.idx − last.idx ≥ min_samples`; otherwise it overwrites
the last kept boundary in place if and only if its segment type differs from
the last kept type or its confidence is strictly greater than the last kept
confidence, and is discarded otherwise. -/
theorem C3_merge_step (ms : ℤ) (acc : List Cand) (last c : Cand)
    (h : acc.getLast? = some last) :
    mergeStep ms acc c =
      if ms ≤ (c.idx : ℤ) - (last.idx : ℤ) then acc ++ [c]
      else if c.ty ≠ last.ty ∨ last.conf < c.conf then acc.dropLast ++ [c]
      else acc := by
  have hne : acc ≠ [] := fun he => by simp [he] at h
  have hlast : acc.getLastD dCand = last := by
    rw [List.getLastD_eq_getLast? dCand acc, h]
    rfl
  unfold mergeStep
  rw [if_neg hne, hlast]
  by_cases h1 : ms ≤ (c.idx : ℤ) - (last.idx : ℤ)
  · rw [if_pos h1, if_pos h1]
  · rw [if_neg h1, if_neg h1, if_congr (merge_overwrite_iff c last) rfl rfl]

/-- Witness for C3: `acc = [⟨0, "stationary", 1⟩]`, `c = ⟨6, "moving", 1⟩`,
`min_samples = 8`: too close and of different type, so `c` overwrites. -/
theorem C3_merge_step_witness :
    ([(⟨0, "stationary", 1⟩ : Cand)] : List Cand).getLast? =
        some (⟨0, "stationary", 1⟩ : Cand) ∧
      mergeStep 8 [(⟨0, "stationary", 1⟩ : Cand)] ⟨6, "moving", 1⟩ =
        if (8 : ℤ) ≤ ((6 : ℕ) : ℤ) - ((0 : ℕ) : ℤ) then
          [(⟨0, "stationary", 1⟩ : Cand)] ++ [⟨6, "moving", 1⟩]
        else if (⟨6, "moving", 1⟩ : Cand).ty ≠ (⟨0, "stationary", 1⟩ : Cand).ty ∨
            (⟨0, "stationary", 1⟩ : Cand).conf < (⟨6, "moving", 1⟩ : Cand).conf then
          ([(⟨0, "stationary", 1⟩ : Cand)] : List Cand).dropLast ++ [⟨6, "moving", 1⟩]
        else [(⟨0, "stationary", 1⟩ : Cand)] :=
  ⟨rfl, C3_merge_step 8 [⟨0, "stationary", 1⟩] ⟨0, "stationary", 1⟩ ⟨6, "moving", 1⟩ rfl⟩

/-- C6: for a series shorter than `2 * sample_rate` samples (or yielding
fewer than 2 windows), `segment_gait` returns exactly one segment spanning
the whole input: boundary 0, time 0, type `"moving"` iff the population
variance of the whole array strictly exceeds `movement_threshold`,
confidence 1.0, and duration `N / sample_rate`. -/
theorem C6_short_input (sp : List ℚ → List ℚ) (cfg : Cfg) (mag : List ℚ)
    (h : mag.length < cfg.sampleRate * 2 ∨ (wSlices cfg mag).length < 2) :
    segmentGait sp cfg mag =
      { boundaries := [0]
        times := [0]
        types := [if cfg.movementThreshold < (if 0 < mag.length then pvar mag else 0)
          then "moving" else "stationary"]
        durations := [(mag.length : ℚ) / cfg.sampleRate]
        confidence := [1]
        count := 1
        params := ⟨cfg.movementThreshold, cfg.varianceThreshold,
          cfg.frequencyThreshold, cfg.minSegmentSeconds⟩ } := by
  unfold segmentGait
  rcases h with h | h
  · rw [if_pos h]; rfl
  · by_cases h1 : mag.length < cfg.sampleRate * 2
    · rw [if_pos h1]; rfl
    · rw [if_neg h1, if_pos h]; rfl

/-- Witness for C6 at `magnitude = [1, 3]`, `sample_rate = 4` (defaults):
2 < 8 samples; the whole-array variance 1 exceeds 0.02, so a single
`"moving"` segment of duration 0.5 is returned. -/
theorem C6_short_input_witness :
    (([1, 3] : List ℚ).length < (cfgD 4).sampleRate * 2 ∨
        (wSlices (cfgD 4) [1, 3]).length < 2) ∧
      segmentGait sp0 (cfgD 4) [1, 3] =
        { boundaries := [0], times := [0], types := ["moving"],
          durations := [1/2], confidence := [1], count := 1,
          params := ⟨1/50, 2, 3/10, 2⟩ } :=
  ⟨Or.inl (by decide),
    (C6_short_input sp0 (cfgD 4) [1, 3] (Or.inl (by decide))).trans
      (by norm_num [pvar, mean, cfgD])⟩

/-- Evaluation at `mag8`: window starts. -/
theorem evM8_starts : wStarts (cfgD 4) mag8 = [0, 2, 4] := by decide

/-- Evaluation at `mag8`: windows 0 and 1 are stationary, window 2 moving. -/
theorem evM8_flags : movingFlags (cfgD 4) mag8 = [false, false, true] := by
  simp only [movingFlags, wVariances, wSlices, evM8_starts]
  norm_num [pvar, mean, mag8, cfgD]

/-- Evaluation at `mag8`: a single movement transition, into window 2. -/
theorem evM8_changes : movementChanges (cfgD 4) mag8 = [0, 1] := by
  simp only [movementChanges, numWindows, evM8_starts, evM8_flags, b2i]
  decide

/-- Evaluation at `mag8`: no gait-change scores (windows 0 and 1 are
stationary), whatever the spectrum function. -/
theorem evM8_scores (sp : List ℚ → List ℚ) : gaitScores sp (cfgD 4) mag8 = [0, 0, 0] := by
  simp only [gaitScores, numWindows, evM8_starts, evM8_flags]
  norm_num [List.range_succ]

/-- Evaluation at `mag8`: window centers. -/
theorem evM8_centers : wCenters (cfgD 4) mag8 = [2, 4, 6] := by decide

/-- Evaluation at `mag8`: the seed boundary plus the movement transition at
window center 6. -/
theorem evM8_raw (sp : List ℚ → List ℚ) :
    rawCands sp (cfgD 4) mag8 = [⟨0, "stationary", 1⟩, ⟨6, "moving", 1⟩] := by
  simp only [rawCands, numWindows, evM8_starts, evM8_flags]
  norm_num [List.range_succ, List.filterMap_cons, rawCandAt, evM8_flags, evM8_changes,
    evM8_scores, evM8_centers]

/-- `min_samples` at the default configuration with `sample_rate = 4`. -/
theorem evM8_ms : minSamples (cfgD 4) = 8 := by
  norm_num [minSamples, pyTrunc, cfgD]

/-- Evaluation at `mag8`: the transition candidate is only 6 < 8 samples from
the seed boundary and of different type, so it overwrites the seed. -/
theorem evM8_final (sp : List ℚ → List ℚ) :
    finalCands sp (cfgD 4) mag8 = [⟨6, "moving", 1⟩] := by
  simp only [finalCands, evM8_raw, evM8_ms, mergeAll]
  norm_num [mergeStep]

/-- Evaluation at `mag8`: the boundary and duration lists of the result. -/
theorem evM8_res (sp : List ℚ → List ℚ) :
    (segmentGait sp (cfgD 4) mag8).boundaries = [6] ∧
      (segmentGait sp (cfgD 4) mag8).durations = [1/2] := by
  have h : segmentGait sp (cfgD 4) mag8 = fullResult sp (cfgD 4) mag8 := by
    unfold segmentGait
    rw [if_neg (by decide), if_neg (by decide)]
  rw [h]
  unfold fullResult
  rw [evM8_final]
  refine ⟨rfl, ?_⟩
  norm_num [mag8, cfgD, List.range_succ]

/-- C1 (code_bug evidence): the full pipeline does not always return 0 as
the first boundary.  On `mag8` (8 = 2·4 samples, 3 windows, full pipeline)
the movement transition at window center 6 is closer than `min_samples = 8`
to the seed boundary 0, so the merge pass overwrites the seed in place
(lines 160-163) and the returned boundary list is `[6]`, whatever the
spectrum function is. -/
theorem C1_boundary_zero_violated (sp : List ℚ → List ℚ) :
    (cfgD 4).sampleRate * 2 ≤ mag8.length ∧ 2 ≤ numWindows (cfgD 4) mag8 ∧
      (segmentGait sp (cfgD 4) mag8).boundaries = [6] :=
  ⟨by decide, by decide, (evM8_res sp).1⟩

/-- C2 (code_bug evidence): on the same input the durations no longer
partition the series: they sum to `(N - boundaries[0]) / sample_rate = 0.5`
instead of `N / sample_rate = 2`. -/
theorem C2_durations_sum_violated (sp : List ℚ → List ℚ) :
    (segmentGait sp (cfgD 4) mag8).durations.sum = 1/2 ∧
      (mag8.length : ℚ) / ((cfgD 4).sampleRate : ℚ) = 2 :=
  ⟨by rw [(evM8_res sp).2]; norm_num, by norm_num [mag8, cfgD]⟩

/-- C8 (code_bug evidence): `segment_gait` performs no finiteness check: on
`magnitude = [NaN]` at the default 194 Hz it returns a normal single-segment
record (`NaN > threshold` is `False` under IEEE comparison, so the segment is
typed `"stationary"`) instead of failing with an error signal. -/
theorem C8_nonfinite_returns :
    segmentGaitF (cfgD 194) [PFloat.nan] =
      some { boundaries := [0], times := [0], types := ["stationary"],
             durations := [1/194], confidence := [1], count := 1,
             params := ⟨1/50, 2, 3/10, 2⟩ } := by
  norm_num [segmentGaitF, emptyResultF, pVar, pMean, pSum, pDivNat, pAdd, pSub, pMul,
    pGt, cfgD]

/-- C4 counterexample: for the magnitude spectrum `[3,0,0,0,0,0,1,2,1]` of a
window of length 16 at 16 Hz (bins at 0..8 Hz; every band bin 1..5 Hz has
magnitude 0; spectral content only outside the band), the code returns 0.0
— `np.argmax` of the fully zeroed masked spectrum is bin 0 — while the
claim's band-restricted maximum with lowest-frequency tie-break selects the
1 Hz bin. -/
theorem C4_counterexample :
    dominantFrequency [3, 0, 0, 0, 0, 0, 1, 2, 1] 16 16 = 0 ∧
      dominantFrequencySpec [3, 0, 0, 0, 0, 0, 1, 2, 1] 16 16 = 1 := by
  norm_num [dominantFrequency, dominantFrequencySpec, fqBin, inBandB, bandIdxs,
    argmaxIdx, listMax, List.range_succ, List.filter_cons, max_def]

/-- `getD` through a `map`, for an in-range index. -/
theorem getD_map_lt {α β : Type} (f : α → β) (l : List α) (i : ℕ) (hi : i < l.length)
    (d : α) (d' : β) : (l.map f).getD i d' = f (l.getD i d) := by
  rw [List.getD_eq_getElem _ _ (by simpa using hi), List.getD_eq_getElem _ _ hi,
    List.getElem_map]

/-- `getD` on `List.range`. -/
theorem range_getD (n i : ℕ) (hi : i < n) : (List.range n).getD i 0 = i := by
  rw [List.getD_eq_getElem _ _ (by simpa using hi), List.getElem_range]

/-- An in-range `getD` is a member. -/
theorem getD_mem_of_lt {α : Type} (l : List α) (i : ℕ) (d : α) (hi : i < l.length) :
    l.getD i d ∈ l := by
  rw [List.getD_eq_getElem _ _ hi]
  exact List.getElem_mem hi

/-- Membership below the ceiling division `(m + s - 1) / s` counts exactly
the multiples of `s` below `m`. -/
theorem lt_ceilDiv_iff (m s k : ℕ) (hs : 0 < s) : k < (m + s - 1) / s ↔ k * s < m := by
  rw [Nat.lt_iff_add_one_le, Nat.le_div_iff_mul_le hs, add_mul, one_mul]
  omega

/-- The `i`-th element of `pyRange` is `i * step`. -/
theorem pyRange_getD (stop : ℤ) (step : ℕ) (i : ℕ)
    (hi : i < (pyRange stop step).length) : (pyRange stop step).getD i 0 = i * step := by
  unfold pyRange at hi ⊢
  by_cases h : 0 < stop ∧ 0 < step
  · rw [if_pos h] at hi ⊢
    rw [getD_map_lt _ _ i (by simpa using hi) 0 0, range_getD _ _ (by simpa using hi)]
  · rw [if_neg h] at hi
    simp at hi

/-- Membership in `pyRange`: exactly the multiples of `step` below `stop`. -/
theorem mem_pyRange (stop : ℤ) (step : ℕ) (hstep : 0 < step) (s : ℕ) :
    s ∈ pyRange stop step ↔ ∃ k, s = k * step ∧ (s : ℤ) < stop := by
  unfold pyRange
  by_cases h : 0 < stop
  · rw [if_pos ⟨h, hstep⟩]
    simp only [List.mem_map, List.mem_range]
    constructor
    · rintro ⟨k, hk, rfl⟩
      refine ⟨k, rfl, ?_⟩
      rw [lt_ceilDiv_iff _ _ _ hstep] at hk
      set p := k * step
      omega
    · rintro ⟨k, rfl, hlt⟩
      refine ⟨k, ?_, rfl⟩
      rw [lt_ceilDiv_iff _ _ _ hstep]
      set p := k * step
      omega
  · rw [if_neg (by tauto)]
    simp only [List.not_mem_nil, false_iff, not_exists, not_and]
    intro k hk
    omega

/-- The `i`-th window start is `i * (sample_rate // 2)`. -/
theorem wStarts_getD (cfg : Cfg) (mag : List ℚ) (i : ℕ) (hi : i < numWindows cfg mag) :
    (wStarts cfg mag).getD i 0 = i * (cfg.sampleRate / 2) :=
  pyRange_getD _ _ i hi

/-- C9: with at least 2 samples per second, the window start indices are
exactly the multiples `k * (sample_rate // 2)` with
`k*step + sample_rate ≤ N`; window `i` is the contiguous slice of length
`sample_rate` at start `i * step`; and a window is classified moving iff the
population variance of its raw samples strictly exceeds
`movement_threshold`. -/
theorem C9_windowing (cfg : Cfg) (mag : List ℚ) (hsr : 2 ≤ cfg.sampleRate) :
    (∀ s : ℕ, s ∈ wStarts cfg mag ↔
        ∃ k, s = k * (cfg.sampleRate / 2) ∧ s + cfg.sampleRate ≤ mag.length) ∧
      ∀ i, i < numWindows cfg mag →
        (wStarts cfg mag).getD i 0 = i * (cfg.sampleRate / 2) ∧
          (wSlices cfg mag).getD i [] =
            (mag.drop ((wStarts cfg mag).getD i 0)).take cfg.sampleRate ∧
          ((movingFlags cfg mag).getD i false = true ↔
            cfg.movementThreshold < pvar ((wSlices cfg mag).getD i [])) := by
  constructor
  · intro s
    rw [wStarts, mem_pyRange _ _ (by omega) s]
    constructor
    · rintro ⟨k, hk, hlt⟩
      exact ⟨k, hk, by omega⟩
    · rintro ⟨k, hk, hle⟩
      exact ⟨k, hk, by omega⟩
  · intro i hi
    refine ⟨wStarts_getD cfg mag i hi, ?_, ?_⟩
    · rw [wSlices, getD_map_lt _ _ i hi 0 []]
    · rw [movingFlags,
        getD_map_lt _ _ i (by simpa [wVariances, wSlices, numWindows] using hi) 0 false,
        wVariances, getD_map_lt _ _ i (by simpa [wSlices, numWindows] using hi) [] 0]
      simp

/-- Witness for C9 at `sample_rate = 4` and the 8-sample series `mag8`. -/
theorem C9_windowing_witness :
    2 ≤ (cfgD 4).sampleRate ∧
      ((∀ s : ℕ, s ∈ wStarts (cfgD 4) mag8 ↔
          ∃ k, s = k * ((cfgD 4).sampleRate / 2) ∧
            s + (cfgD 4).sampleRate ≤ mag8.length) ∧
        ∀ i, i < numWindows (cfgD 4) mag8 →
          (wStarts (cfgD 4) mag8).getD i 0 = i * ((cfgD 4).sampleRate / 2) ∧
            (wSlices (cfgD 4) mag8).getD i [] =
              (mag8.drop ((wStarts (cfgD 4) mag8).getD i 0)).take (cfgD 4).sampleRate ∧
            ((movingFlags (cfgD 4) mag8).getD i false = true ↔
              (cfgD 4).movementThreshold < pvar ((wSlices (cfgD 4) mag8).getD i []))) :=
  ⟨by decide, C9_windowing (cfgD 4) mag8 (by decide)⟩

/-- The score of window `i` read out of the score list. -/
theorem gaitScores_getD (sp : List ℚ → List ℚ) (cfg : Cfg) (mag : List ℚ) (i : ℕ)
    (hi : i < numWindows cfg mag) :
    (gaitScores sp cfg mag).getD i 0 =
      if 1 ≤ i ∧ (movingFlags cfg mag).getD i false = true ∧
          (movingFlags cfg mag).getD (i - 1) false = true then
        6/10 * bq (varChangeB cfg mag i) + 4/10 * bq (freqChangeB sp cfg mag i)
      else 0 := by
  rw [gaitScores, getD_map_lt _ _ i (by simpa using hi) 0 0, range_getD _ _ hi]

/-- C5: for a window `i ≥ 1` with windows `i` and `i-1` both moving, the
change score is exactly `0.6 * float(var_change) + 0.4 * float(freq_change)`;
the boundary loop emits a gait-change candidate (type `"moving"`, confidence
the score) at `window_centers[i]` iff the score strictly exceeds 0.4; and
the score exceeds 0.4 iff `var_change` is true. -/
theorem C5_gait_change_score (sp : List ℚ → List ℚ) (cfg : Cfg) (mag : List ℚ) (i : ℕ)
    (hi : 1 ≤ i) (hiW : i < numWindows cfg mag)
    (hm : (movingFlags cfg mag).getD i false = true)
    (hm1 : (movingFlags cfg mag).getD (i - 1) false = true) :
    (gaitScores sp cfg mag).getD i 0 =
        6/10 * bq (varChangeB cfg mag i) + 4/10 * bq (freqChangeB sp cfg mag i) ∧
      rawCandAt sp cfg mag i =
        (if 4/10 < (gaitScores sp cfg mag).getD i 0 then
          some ⟨(wCenters cfg mag).getD i 0, "moving", (gaitScores sp cfg mag).getD i 0⟩
        else none) ∧
      (4/10 < (gaitScores sp cfg mag).getD i 0 ↔ varChangeB cfg mag i = true) := by
  have hscore : (gaitScores sp cfg mag).getD i 0 =
      6/10 * bq (varChangeB cfg mag i) + 4/10 * bq (freqChangeB sp cfg mag i) := by
    rw [gaitScores_getD sp cfg mag i hiW, if_pos ⟨hi, hm, hm1⟩]
  have hmc : (movementChanges cfg mag).getD (i - 1) 0 = 0 := by
    have hlt : i - 1 < numWindows cfg mag - 1 := by omega
    rw [movementChanges, getD_map_lt _ _ (i - 1) (by simpa using hlt) 0 0,
      range_getD _ _ hlt]
    have h1 : i - 1 + 1 = i := by omega
    rw [h1, hm, hm1]
    simp [b2i]
  refine ⟨hscore, ?_, ?_⟩
  · rw [rawCandAt, if_neg (fun h => h.2 hmc)]
  · rw [hscore]
    cases hv : varChangeB cfg mag i <;> cases hf : freqChangeB sp cfg mag i <;>
      norm_num [bq]

/-- Evaluation at `magMov`: window starts. -/
theorem evMov_starts : wStarts (cfgD 4) magMov = [0, 2, 4] := by decide

/-- Evaluation at `magMov`: all three windows are moving. -/
theorem evMov_flags : movingFlags (cfgD 4) magMov = [true, true, true] := by
  simp only [movingFlags, wVariances, wSlices, evMov_starts]
  norm_num [pvar, mean, magMov, cfgD]

/-- Witness for C5 at `magMov` (all windows moving), window 1. -/
theorem C5_gait_change_score_witness :
    (1 ≤ 1 ∧ 1 < numWindows (cfgD 4) magMov ∧
        (movingFlags (cfgD 4) magMov).getD 1 false = true ∧
        (movingFlags (cfgD 4) magMov).getD (1 - 1) false = true) ∧
      ((gaitScores sp0 (cfgD 4) magMov).getD 1 0 =
          6/10 * bq (varChangeB (cfgD 4) magMov 1) +
            4/10 * bq (freqChangeB sp0 (cfgD 4) magMov 1) ∧
        rawCandAt sp0 (cfgD 4) magMov 1 =
          (if 4/10 < (gaitScores sp0 (cfgD 4) magMov).getD 1 0 then
            some ⟨(wCenters (cfgD 4) magMov).getD 1 0, "moving",
              (gaitScores sp0 (cfgD 4) magMov).getD 1 0⟩
          else none) ∧
        (4/10 < (gaitScores sp0 (cfgD 4) magMov).getD 1 0 ↔
          varChangeB (cfgD 4) magMov 1 = true)) :=
  ⟨⟨le_refl 1, by decide, by rw [evMov_flags]; rfl, by rw [evMov_flags]; rfl⟩,
    C5_gait_change_score sp0 (cfgD 4) magMov 1 (le_refl 1) (by decide)
      (by rw [evMov_flags]; rfl) (by rw [evMov_flags]; rfl)⟩

/-- Every element of `mergeStep ms acc c` comes from `acc` or is `c`. -/
theorem mem_mergeStep {ms : ℤ} {acc : List Cand} {c x : Cand}
    (hx : x ∈ mergeStep ms acc c) : x ∈ acc ∨ x = c := by
  unfold mergeStep at hx
  split at hx
  · exact Or.inr (by simpa using hx)
  · split at hx
    · rcases List.mem_append.mp hx with h | h
      · exact Or.inl h
      · exact Or.inr (by simpa using h)
    · split at hx
      · rcases List.mem_append.mp hx with h | h
        · exact Or.inl ((List.dropLast_sublist acc).subset h)
        · exact Or.inr (by simpa using h)
      · exact Or.inl hx

/-- Every element of a merge fold comes from the seed list or the inputs. -/
theorem mem_foldl_mergeStep {ms : ℤ} :
    ∀ (cs : List Cand) (acc : List Cand) (x : Cand),
      x ∈ cs.foldl (mergeStep ms) acc → x ∈ acc ∨ x ∈ cs
  | [], _, _, hx => Or.inl hx
  | c :: cs, acc, x, hx => by
    rw [List.foldl_cons] at hx
    rcases mem_foldl_mergeStep cs (mergeStep ms acc c) x hx with h | h
    · rcases mem_mergeStep h with h' | h'
      · exact Or.inl h'
      · exact Or.inr (by simp [h'])
    · exact Or.inr (List.mem_cons_of_mem _ h)

/-- The merge pass only keeps candidates of the raw list. -/
theorem mem_mergeAll {ms : ℤ} {raw : List Cand} {x : Cand} (hx : x ∈ mergeAll ms raw) :
    x ∈ raw := by
  cases raw with
  | nil => simp [mergeAll] at hx
  | cons c cs =>
    rcases mem_foldl_mergeStep cs [c] x (by simpa [mergeAll] using hx) with h | h
    · simp only [List.mem_singleton] at h
      simp [h]
    · exact List.mem_cons_of_mem _ h

/-- Every gait-change score is one of 0, 0.4, 0.6, 1. -/
theorem gaitScores_values {sp : List ℚ → List ℚ} {cfg : Cfg} {mag : List ℚ} {q : ℚ}
    (hq : q ∈ gaitScores sp cfg mag) : q = 0 ∨ q = 2/5 ∨ q = 3/5 ∨ q = 1 := by
  unfold gaitScores at hq
  rcases List.mem_map.mp hq with ⟨i, _, rfl⟩
  split
  · cases varChangeB cfg mag i <;> cases freqChangeB sp cfg mag i
    · refine Or.inl ?_
      norm_num [bq]
    · refine Or.inr (Or.inl ?_)
      norm_num [bq]
    · refine Or.inr (Or.inr (Or.inl ?_))
      norm_num [bq]
    · refine Or.inr (Or.inr (Or.inr ?_))
      norm_num [bq]
  · exact Or.inl rfl

/-- There is one score per window. -/
theorem gaitScores_length (sp : List ℚ → List ℚ) (cfg : Cfg) (mag : List ℚ) :
    (gaitScores sp cfg mag).length = numWindows cfg mag := by
  simp [gaitScores]

/-- Every raw candidate carries confidence 1 or 0.6: the seed and movement
transitions carry 1.0, and an emitted gait-change confidence is a score
strictly above 0.4, hence 0.6 or 1. -/
theorem rawCands_conf {sp : List ℚ → List ℚ} {cfg : Cfg} {mag : List ℚ} {c : Cand}
    (hc : c ∈ rawCands sp cfg mag) : c.conf = 1 ∨ c.conf = 3/5 := by
  unfold rawCands at hc
  rcases List.mem_cons.mp hc with rfl | hc
  · exact Or.inl rfl
  · rcases List.mem_filterMap.mp hc with ⟨i, hi, hsome⟩
    rw [List.mem_range] at hi
    unfold rawCandAt at hsome
    split at hsome
    · exact Or.inl (by cases hsome; rfl)
    · split at hsome
      case isTrue hgt =>
        cases hsome
        have hmem : (gaitScores sp cfg mag).getD i 0 ∈ gaitScores sp cfg mag :=
          getD_mem_of_lt _ i 0 (by rw [gaitScores_length]; exact hi)
        rcases gaitScores_values hmem with h | h | h | h <;> rw [h] at hgt ⊢
        · exact absurd hgt (by norm_num)
        · exact absurd hgt (by norm_num)
        · exact Or.inr rfl
        · exact Or.inl rfl
      · exact absurd hsome (by simp)

/-- C10: every confidence value of the returned record is 0.6 or 1.0 (in
particular in [0,1]).  The hypothesis `2 ≤ sample_rate` only excludes the
rates at which the Python source raises `ValueError` (`range` step 0). -/
theorem C10_confidences (sp : List ℚ → List ℚ) (cfg : Cfg) (mag : List ℚ)
    (_hsr : 2 ≤ cfg.sampleRate) (q : ℚ)
    (hq : q ∈ (segmentGait sp cfg mag).confidence) : q = 3/5 ∨ q = 1 := by
  unfold segmentGait at hq
  split at hq
  · simp [emptyResult] at hq
    exact Or.inr hq
  · split at hq
    · simp [emptyResult] at hq
      exact Or.inr hq
    · simp only [fullResult] at hq
      rcases List.mem_map.mp hq with ⟨c, hc, rfl⟩
      rcases rawCands_conf (mem_mergeAll hc) with h | h
      · exact Or.inr h
      · exact Or.inl h

/-- With the empty-spectrum function every per-window frequency reads 0. -/
theorem freqList_sp0_getD (cfg : Cfg) (mag : List ℚ) (i : ℕ) :
    (freqList sp0 cfg mag).getD i 0 = 0 := by
  rcases Nat.lt_or_ge i (freqList sp0 cfg mag).length with h | h
  · rw [List.getD_eq_getElem _ _ h]
    unfold freqList at h ⊢
    rw [List.getElem_map]
    split <;> simp [sp0, dominantFrequency]
  · exact List.getD_eq_default _ _ h

/-- With the empty-spectrum function no frequency change fires (defaults). -/
theorem freqChangeB_sp0 (mag : List ℚ) (i : ℕ) :
    freqChangeB sp0 (cfgD 4) mag i = false := by
  unfold freqChangeB
  rw [freqList_sp0_getD, freqList_sp0_getD]
  norm_num [cfgD]

/-- Evaluation at `mag24`: window starts. -/
theorem evM24_starts : wStarts (cfgD 4) mag24 = [0, 2, 4, 6, 8, 10, 12, 14, 16, 18, 20] := by
  decide

/-- Evaluation at `mag24`: windows 9 and 10 are moving, the rest stationary. -/
theorem evM24_flags : movingFlags (cfgD 4) mag24 =
    [false, false, false, false, false, false, false, false, false, true, true] := by
  simp only [movingFlags, wVariances, wSlices, evM24_starts]
  norm_num [pvar, mean, mag24, cfgD, List.replicate_succ]

/-- Evaluation at `mag24`: one movement transition, into window 9. -/
theorem evM24_changes : movementChanges (cfgD 4) mag24 = [0, 0, 0, 0, 0, 0, 0, 0, 1, 0] := by
  simp only [movementChanges, numWindows, evM24_starts, evM24_flags, b2i]
  decide

/-- Evaluation at `mag24`: the two moving windows have equal variance. -/
theorem evM24_mvars : movingVars (cfgD 4) mag24 = [243/16, 243/16] := by
  simp only [movingVars, wVariances, wSlices, evM24_starts, evM24_flags]
  norm_num [pvar, mean, mag24, cfgD, List.replicate_succ, List.filter_cons]

/-- Evaluation at `mag24`: the moving variances have zero spread, so no
variance change fires. -/
theorem evM24_varchange (i : ℕ) : varChangeB (cfgD 4) mag24 i = false := by
  unfold varChangeB
  rw [if_neg]
  rw [evM24_mvars]
  norm_num [pvar, mean]

/-- Evaluation at `mag24`: all gait-change scores vanish. -/
theorem evM24_scores : gaitScores sp0 (cfgD 4) mag24 = List.replicate 11 0 := by
  simp only [gaitScores, numWindows, evM24_starts]
  have h : ∀ i : ℕ,
      (if 1 ≤ i ∧ (movingFlags (cfgD 4) mag24).getD i false = true ∧
          (movingFlags (cfgD 4) mag24).getD (i - 1) false = true then
        6/10 * bq (varChangeB (cfgD 4) mag24 i) + 4/10 * bq (freqChangeB sp0 (cfgD 4) mag24 i)
      else 0) = 0 := by
    intro i
    rw [evM24_varchange, freqChangeB_sp0]
    norm_num [bq]
  simp only [List.length_cons, List.length_nil, h]
  decide

/-- Evaluation at `mag24`: window centers. -/
theorem evM24_centers : wCenters (cfgD 4) mag24 = [2, 4, 6, 8, 10, 12, 14, 16, 18, 20, 22] := by
  decide

/-- Evaluation at `mag24`: seed boundary plus the transition at center 20. -/
theorem evM24_raw : rawCands sp0 (cfgD 4) mag24 =
    [⟨0, "stationary", 1⟩, ⟨20, "moving", 1⟩] := by
  simp only [rawCands, numWindows, evM24_starts, evM24_flags]
  norm_num [List.range_succ, List.filterMap_cons, rawCandAt, evM24_flags, evM24_changes,
    evM24_scores, evM24_centers, List.replicate_succ]

/-- Evaluation at `mag24`: the transition is `20 ≥ min_samples = 8` samples
from the seed, so both boundaries are kept. -/
theorem evM24_final : finalCands sp0 (cfgD 4) mag24 =
    [⟨0, "stationary", 1⟩, ⟨20, "moving", 1⟩] := by
  simp only [finalCands, evM24_raw, mergeAll]
  norm_num [mergeStep, minSamples, pyTrunc, cfgD]

/-- Evaluation at `mag24`: boundaries, durations and confidences. -/
theorem evM24_res :
    (segmentGait sp0 (cfgD 4) mag24).boundaries = [0, 20] ∧
      (segmentGait sp0 (cfgD 4) mag24).durations = [5, 1] ∧
      (segmentGait sp0 (cfgD 4) mag24).confidence = [1, 1] := by
  have h : segmentGait sp0 (cfgD 4) mag24 = fullResult sp0 (cfgD 4) mag24 := by
    unfold segmentGait
    rw [if_neg (by decide), if_neg (by decide)]
  rw [h]
  unfold fullResult
  rw [evM24_final]
  refine ⟨rfl, ?_, rfl⟩
  norm_num [mag24, cfgD, List.range_succ]

/-- Witness for C10 at `mag24`: the confidence 1.0 of its first boundary. -/
theorem C10_confidences_witness :
    (2 ≤ (cfgD 4).sampleRate ∧ (1 : ℚ) ∈ (segmentGait sp0 (cfgD 4) mag24).confidence) ∧
      ((1 : ℚ) = 3/5 ∨ (1 : ℚ) = 1) :=
  ⟨⟨by decide, by rw [evM24_res.2.2]; simp⟩,
    C10_confidences sp0 (cfgD 4) mag24 (by decide) 1 (by rw [evM24_res.2.2]; simp)⟩

/-- The center of window `i`. -/
theorem wCenters_getD (cfg : Cfg) (mag : List ℚ) (i : ℕ) (hi : i < numWindows cfg mag) :
    (wCenters cfg mag).getD i 0 = i * (cfg.sampleRate / 2) + cfg.sampleRate / 2 := by
  rw [wCenters, getD_map_lt _ _ i hi 0 0, wStarts_getD cfg mag i hi]

/-- Window 0 never carries a gait-change score. -/
theorem gaitScores_getD_zero (sp : List ℚ → List ℚ) (cfg : Cfg) (mag : List ℚ) :
    (gaitScores sp cfg mag).getD 0 0 = 0 := by
  rcases Nat.eq_zero_or_pos (numWindows cfg mag) with hW | hW
  · apply List.getD_eq_default
    rw [gaitScores_length, hW]
  · rw [gaitScores_getD sp cfg mag 0 hW, if_neg (by simp)]

/-- A window that emits a candidate is a window `i ≥ 1`, and the candidate
sits at that window's center. -/
theorem rawCandAt_some {sp : List ℚ → List ℚ} {cfg : Cfg} {mag : List ℚ} {i : ℕ} {c : Cand}
    (h : rawCandAt sp cfg mag i = some c) :
    1 ≤ i ∧ c.idx = (wCenters cfg mag).getD i 0 := by
  unfold rawCandAt at h
  split at h
  case isTrue hcond =>
    cases h
    exact ⟨hcond.1, rfl⟩
  case isFalse =>
    split at h
    case isTrue hgt =>
      cases h
      refine ⟨?_, rfl⟩
      rcases Nat.eq_zero_or_pos i with rfl | hi
      · rw [gaitScores_getD_zero] at hgt
        exact absurd hgt (by norm_num)
      · exact hi
    case isFalse => exact absurd h (by simp)

/-- `filterMap` over a strictly increasing index list yields a list whose
candidate indices are pairwise increasing, provided the emitted index grows
with the window index. -/
theorem pairwise_filterMap_idx (f : ℕ → Option Cand) :
    ∀ (l : List ℕ), l.Pairwise (· < ·) →
      (∀ i ∈ l, ∀ j ∈ l, i < j → ∀ a, f i = some a → ∀ b, f j = some b → a.idx < b.idx) →
      (l.filterMap f).Pairwise (fun a b : Cand => a.idx < b.idx)
  | [], _, _ => by simp
  | i :: l, hp, hcomp => by
    rw [List.filterMap_cons]
    have hp' := List.pairwise_cons.mp hp
    have ih := pairwise_filterMap_idx f l hp'.2
      (fun a ha b hb hab => hcomp a (by simp [ha]) b (by simp [hb]) hab)
    cases hfi : f i with
    | none => exact ih
    | some a =>
      rw [List.pairwise_cons]
      refine ⟨?_, ih⟩
      intro b hb
      rcases List.mem_filterMap.mp hb with ⟨j, hj, hfj⟩
      exact hcomp i (by simp) j (by simp [hj]) (hp'.1 j hj) a hfi b hfj

/-- The raw candidate list is strictly increasing in sample index: the seed
sits at 0 and every emitted candidate at the (positive, strictly increasing)
center of its window. -/
theorem rawCands_pairwise (sp : List ℚ → List ℚ) (cfg : Cfg) (mag : List ℚ)
    (hstep : 0 < cfg.sampleRate / 2) :
    (rawCands sp cfg mag).Pairwise (fun a b : Cand => a.idx < b.idx) := by
  have hcand : ∀ i ∈ List.range (numWindows cfg mag), ∀ c, rawCandAt sp cfg mag i = some c →
      c.idx = i * (cfg.sampleRate / 2) + cfg.sampleRate / 2 ∧ 1 ≤ i := by
    intro i hi c hc
    have h := rawCandAt_some hc
    rw [List.mem_range] at hi
    exact ⟨h.2.trans (wCenters_getD cfg mag i hi), h.1⟩
  unfold rawCands
  rw [List.pairwise_cons]
  constructor
  · intro b hb
    rcases List.mem_filterMap.mp hb with ⟨j, hj, hfj⟩
    have hj' := hcand j hj b hfj
    show (0 : ℕ) < b.idx
    rw [hj'.1]
    calc 0 < cfg.sampleRate / 2 := hstep
    _ ≤ j * (cfg.sampleRate / 2) + cfg.sampleRate / 2 := Nat.le_add_left _ _
  · apply pairwise_filterMap_idx _ _ (List.pairwise_lt_range _)
    intro i hi j hj hij a ha b hb
    rw [(hcand i hi a ha).1, (hcand j hj b hb).1]
    have hmul : i * (cfg.sampleRate / 2) < j * (cfg.sampleRate / 2) :=
      Nat.mul_lt_mul_of_lt_of_le hij (le_refl _) hstep
    exact Nat.add_lt_add_right hmul _

/-- One merge step preserves: non-emptiness, the "`≥ min_samples` between
consecutive kept boundaries" chain, and the fact that the last kept boundary
either becomes the new candidate (append/overwrite) or stays (discard). -/
theorem mergeStep_props (ms : ℤ) (acc : List Cand) (c : Cand) (hne : acc ≠ [])
    (hch : List.Chain' (fun a b : Cand => (a.idx : ℤ) + ms ≤ (b.idx : ℤ)) acc)
    (hlt : (acc.getLastD dCand).idx < c.idx) :
    mergeStep ms acc c ≠ [] ∧
      List.Chain' (fun a b : Cand => (a.idx : ℤ) + ms ≤ (b.idx : ℤ)) (mergeStep ms acc c) ∧
      ((mergeStep ms acc c).getLastD dCand = c ∨
        (mergeStep ms acc c).getLastD dCand = acc.getLastD dCand) := by
  have hlastmem : acc.getLast? = some (acc.getLastD dCand) := by
    rw [List.getLastD_eq_getLast?, List.getLast?_eq_getLast _ hne]
    rfl
  unfold mergeStep
  rw [if_neg hne]
  by_cases h1 : ms ≤ (c.idx : ℤ) - ((acc.getLastD dCand).idx : ℤ)
  · rw [if_pos h1]
    refine ⟨by simp, ?_, Or.inl (by simp)⟩
    rw [List.chain'_append]
    refine ⟨hch, List.chain'_singleton c, ?_⟩
    intro x hx y hy
    have hx' : x = acc.getLastD dCand := by
      rw [hlastmem] at hx
      simpa using hx.symm
    have hy' : y = c := by simpa using hy.symm
    rw [hx', hy']
    omega
  · rw [if_neg h1]
    by_cases h2 : (c.ty ≠ (acc.getLastD dCand).ty ∨
        (c.ty = "stationary" ∧ (acc.getLastD dCand).ty = "moving") ∨
        (c.ty = "moving" ∧ (acc.getLastD dCand).ty = "stationary")) ∨
      (acc.getLastD dCand).conf < c.conf
    · rw [if_pos h2]
      refine ⟨by simp, ?_, Or.inl (by simp)⟩
      have hacc : acc.dropLast ++ [acc.getLastD dCand] = acc := by
        conv_rhs => rw [← List.dropLast_append_getLast hne]
        rw [List.getLastD_eq_getLast?, List.getLast?_eq_getLast _ hne]
        rfl
      have hch' := hch
      rw [← hacc, List.chain'_append] at hch'
      rw [List.chain'_append]
      refine ⟨hch'.1, List.chain'_singleton c, ?_⟩
      intro x hx y hy
      have hy' : y = c := by simpa using hy.symm
      have hxl := hch'.2.2 x hx (acc.getLastD dCand) (by simp)
      rw [hy']
      omega
    · rw [if_neg h2]
      exact ⟨hne, hch, Or.inr rfl⟩

/-- Folding the merge step over a list of candidates that all lie strictly
beyond the current last kept boundary preserves the min-gap chain. -/
theorem foldl_mergeStep_chain (ms : ℤ) :
    ∀ (cs : List Cand) (acc : List Cand), acc ≠ [] →
      List.Chain' (fun a b : Cand => (a.idx : ℤ) + ms ≤ (b.idx : ℤ)) acc →
      List.Chain' (fun a b : Cand => a.idx < b.idx) (acc.getLastD dCand :: cs) →
      cs.foldl (mergeStep ms) acc ≠ [] ∧
        List.Chain' (fun a b : Cand => (a.idx : ℤ) + ms ≤ (b.idx : ℤ))
          (cs.foldl (mergeStep ms) acc)
  | [], acc, hne, hch, _ => ⟨hne, hch⟩
  | c :: cs, acc, hne, hch, hfut => by
    rw [List.foldl_cons]
    have hfut1 := List.chain'_cons.mp hfut
    have props := mergeStep_props ms acc c hne hch hfut1.1
    have hfut2 : List.Chain' (fun a b : Cand => a.idx < b.idx)
        ((mergeStep ms acc c).getLastD dCand :: cs) := by
      rcases props.2.2 with h | h
      · rw [h]
        exact hfut1.2
      · rw [h]
        cases cs with
        | nil => simp
        | cons u us =>
          have hfut3 := List.chain'_cons.mp hfut1.2
          exact List.chain'_cons.mpr ⟨lt_trans hfut1.1 hfut3.1, hfut3.2⟩
    exact foldl_mergeStep_chain ms cs (mergeStep ms acc c) props.1 props.2.1 hfut2

/-- Consecutive final candidates are at least `min_samples` apart. -/
theorem finalCands_chain (sp : List ℚ → List ℚ) (cfg : Cfg) (mag : List ℚ)
    (hstep : 0 < cfg.sampleRate / 2) :
    List.Chain' (fun a b : Cand => (a.idx : ℤ) + minSamples cfg ≤ (b.idx : ℤ))
      (finalCands sp cfg mag) := by
  have hpw := rawCands_pairwise sp cfg mag hstep
  have h0 : rawCands sp cfg mag =
      (⟨0, if (movingFlags cfg mag).getD 0 false then "moving" else "stationary", 1⟩ : Cand) ::
        (List.range (numWindows cfg mag)).filterMap (rawCandAt sp cfg mag) := rfl
  unfold finalCands
  rw [h0, mergeAll]
  refine (foldl_mergeStep_chain (minSamples cfg) _ _ (by simp)
    (List.chain'_singleton _) ?_).2
  rw [h0] at hpw
  have := hpw.chain'
  simpa using this

/-- Adjacent elements of a `Chain'`ed list, read through `getD`. -/
theorem chain'_getD {α : Type} {R : α → α → Prop} {l : List α} (h : List.Chain' R l)
    (i : ℕ) (hi : i + 1 < l.length) (d : α) : R (l.getD i d) (l.getD (i + 1) d) := by
  rw [List.getD_eq_getElem _ _ (by omega), List.getD_eq_getElem _ _ hi]
  have := List.chain'_iff_get.mp h i (by omega)
  simpa using this

/-- C7: every pair of consecutive boundaries of the returned record differs
by at least `min_samples = int(min_segment_seconds * sample_rate)`, and every
internal segment duration is at least `min_samples / sample_rate` seconds
(i.e. `min_segment_seconds` up to the integer truncation of `min_samples`). -/
theorem C7_min_gap (sp : List ℚ → List ℚ) (cfg : Cfg) (mag : List ℚ)
    (hsr : 2 ≤ cfg.sampleRate) (i : ℕ)
    (hi : i + 1 < (segmentGait sp cfg mag).boundaries.length) :
    minSamples cfg ≤ ((segmentGait sp cfg mag).boundaries.getD (i + 1) 0 : ℤ) -
        ((segmentGait sp cfg mag).boundaries.getD i 0 : ℤ) ∧
      (minSamples cfg : ℚ) / (cfg.sampleRate : ℚ) ≤
        (segmentGait sp cfg mag).durations.getD i 0 := by
  unfold segmentGait at hi ⊢
  by_cases hA : mag.length < cfg.sampleRate * 2
  · rw [if_pos hA] at hi
    simp [emptyResult] at hi
  rw [if_neg hA] at hi ⊢
  by_cases hB : (wSlices cfg mag).length < 2
  · rw [if_pos hB] at hi
    simp [emptyResult] at hi
  rw [if_neg hB] at hi ⊢
  have hstep : 0 < cfg.sampleRate / 2 := by omega
  have hchain := finalCands_chain sp cfg mag hstep
  simp only [fullResult] at hi ⊢
  have hmap : List.Chain' (fun a b : ℕ => (a : ℤ) + minSamples cfg ≤ (b : ℤ))
      ((finalCands sp cfg mag).map (fun c => c.idx)) :=
    (List.chain'_map _).mpr hchain
  have g1 := chain'_getD hmap i hi 0
  have hlen : i < ((finalCands sp cfg mag).map (fun c => c.idx)).length :=
    Nat.lt_of_succ_lt hi
  constructor
  · omega
  · rw [getD_map_lt _ _ i (by simpa using hlen) 0 0, range_getD _ _ (by simpa using hlen),
      if_pos (by simp only [List.length_map] at hi ⊢; omega)]
    rw [div_le_div_iff_of_pos_right
      (by exact_mod_cast (by omega : 0 < cfg.sampleRate) : (0 : ℚ) < (cfg.sampleRate : ℚ))]
    have g2 : (minSamples cfg : ℤ) ≤
        ((((finalCands sp cfg mag).map (fun c => c.idx)).getD (i + 1) 0 : ℕ) : ℤ) -
          ((((finalCands sp cfg mag).map (fun c => c.idx)).getD i 0 : ℕ) : ℤ) := by
      omega
    exact_mod_cast g2

/-- Witness for C7 at `mag24`: its two final boundaries 0 and 20 are
`20 ≥ min_samples = 8` apart, and the first segment lasts `5 ≥ 2` seconds. -/
theorem C7_min_gap_witness :
    (2 ≤ (cfgD 4).sampleRate ∧
        0 + 1 < (segmentGait sp0 (cfgD 4) mag24).boundaries.length) ∧
      (minSamples (cfgD 4) ≤
          ((segmentGait sp0 (cfgD 4) mag24).boundaries.getD (0 + 1) 0 : ℤ) -
            ((segmentGait sp0 (cfgD 4) mag24).boundaries.getD 0 0 : ℤ) ∧
        (minSamples (cfgD 4) : ℚ) / ((cfgD 4).sampleRate : ℚ) ≤
          (segmentGait sp0 (cfgD 4) mag24).durations.getD 0 0) :=
  ⟨⟨by decide, by rw [evM24_res.1]; decide⟩,
    C7_min_gap sp0 (cfgD 4) mag24 (by decide) 0 (by rw [evM24_res.1]; decide)⟩

/-- The maximum of a nonempty list is one of its elements. -/
theorem listMax_mem : ∀ (l : List ℚ), l ≠ [] → listMax l ∈ l
  | [x], _ => by simp [listMax]
  | x :: y :: ys, _ => by
    simp only [listMax]
    rcases max_cases x (listMax (y :: ys)) with ⟨h, _⟩ | ⟨h, _⟩
    · rw [h]
      simp
    · rw [h]
      exact List.mem_cons_of_mem _ (listMax_mem (y :: ys) (by simp))

/-- Every element is bounded by the list maximum. -/
theorem le_listMax : ∀ (l : List ℚ) (x : ℚ), x ∈ l → x ≤ listMax l
  | [y], x, hx => by
    simp only [List.mem_singleton] at hx
    simp [listMax, hx]
  | y :: z :: zs, x, hx => by
    simp only [listMax]
    rcases List.mem_cons.mp hx with rfl | hx'
    · exact le_max_left _ _
    · exact le_trans (le_listMax (z :: zs) x hx') (le_max_right _ _)

/-- `np.argmax` of a nonempty list is in range. -/
theorem argmaxIdx_lt_length : ∀ (l : List ℚ), l ≠ [] → argmaxIdx l < l.length
  | [x], _ => by simp [argmaxIdx]
  | x :: y :: ys, _ => by
    simp only [argmaxIdx]
    split
    · have := argmaxIdx_lt_length (y :: ys) (by simp)
      simp only [List.length_cons] at this ⊢
      omega
    · simp

/-- The element at the argmax index is the maximum. -/
theorem getD_argmaxIdx : ∀ (l : List ℚ), l ≠ [] → l.getD (argmaxIdx l) 0 = listMax l
  | [x], _ => by simp [argmaxIdx, listMax]
  | x :: y :: ys, _ => by
    simp only [argmaxIdx, listMax]
    split
    case isTrue h =>
      rw [List.getD_cons_succ, getD_argmaxIdx (y :: ys) (by simp)]
      exact (max_eq_right (le_of_lt h)).symm
    case isFalse h =>
      rw [List.getD_cons_zero]
      push_neg at h
      exact (max_eq_left h).symm

/-- `np.argmax` returns the FIRST index of the maximum: everything before
it is strictly below the maximum. -/
theorem getD_lt_of_lt_argmaxIdx : ∀ (l : List ℚ) (j : ℕ), j < argmaxIdx l →
    l.getD j 0 < listMax l
  | [], j, hj => by simp [argmaxIdx] at hj
  | [x], j, hj => by simp [argmaxIdx] at hj
  | x :: y :: ys, j, hj => by
    simp only [argmaxIdx] at hj
    split at hj
    case isTrue h =>
      simp only [listMax]
      rw [max_eq_right (le_of_lt h)]
      cases j with
      | zero => simpa using h
      | succ j' =>
        rw [List.getD_cons_succ]
        have := getD_lt_of_lt_argmaxIdx (y :: ys) j' (by omega)
        exact this
    case isFalse => omega

/-- On an all-zero list `np.argmax` returns 0. -/
theorem argmaxIdx_eq_zero : ∀ (l : List ℚ), (∀ x ∈ l, x = 0) → argmaxIdx l = 0
  | [], _ => rfl
  | [_], _ => rfl
  | x :: y :: ys, h => by
    simp only [argmaxIdx]
    have h1 : listMax (y :: ys) ∈ y :: ys := listMax_mem _ (by simp)
    have h2 := h _ (List.mem_cons_of_mem x h1)
    have h3 := h x (by simp)
    rw [if_neg (by rw [h2, h3]; exact lt_irrefl 0)]

/-- A member is an in-range `getD`. -/
theorem mem_exists_getD {α : Type} {l : List α} {x : α} (h : x ∈ l) (d : α) :
    ∃ j, j < l.length ∧ l.getD j d = x := by
  rcases List.mem_iff_get.mp h with ⟨⟨j, hj⟩, rfl⟩
  exact ⟨j, hj, by rw [List.getD_eq_getElem _ _ hj]; simp⟩

/-- The mask entry of bin `k` is the band test of bin `k`. -/
theorem validMask_getD (n sr : ℕ) (k : ℕ) (hk : k < n / 2 + 1) :
    (((List.range (n / 2 + 1)).map (fqBin n sr)).map
        (fun f => decide (1/2 ≤ f ∧ f ≤ 5))).getD k false = inBandB n sr k := by
  rw [List.map_map, getD_map_lt _ _ k (by simpa using hk) 0 false, range_getD _ _ hk]
  rfl

/-- The zeroed spectrum reads the original magnitude in band and 0 outside. -/
theorem validFft_getD (fftMag : List ℚ) (n sr : ℕ) (hlen : fftMag.length = n / 2 + 1)
    (k : ℕ) (hk : k < fftMag.length) :
    ((List.range fftMag.length).map (fun j =>
        if (((List.range (n / 2 + 1)).map (fqBin n sr)).map
              (fun f => decide (1/2 ≤ f ∧ f ≤ 5))).getD j false = true then
          fftMag.getD j 0
        else 0)).getD k 0 =
      if inBandB n sr k = true then fftMag.getD k 0 else 0 := by
  rw [getD_map_lt _ _ k (by simpa using hk) 0 0, range_getD _ _ hk,
    validMask_getD n sr k (by omega)]

/-- Membership in the band index list. -/
theorem mem_bandIdxs (n sr k : ℕ) :
    k ∈ bandIdxs n sr ↔ k < n / 2 + 1 ∧ inBandB n sr k = true := by
  unfold bandIdxs
  rw [List.mem_filter, List.mem_range]

/-- The band indices are listed in increasing (frequency) order. -/
theorem bandIdxs_pairwise (n sr : ℕ) : (bandIdxs n sr).Pairwise (· < ·) :=
  (List.pairwise_lt_range _).sublist (List.filter_sublist _)

/-- `getD` is strictly monotone on a strictly sorted list. -/
theorem pairwise_lt_getD {l : List ℕ} (h : l.Pairwise (· < ·)) (i j : ℕ)
    (hij : i < j) (hj : j < l.length) : l.getD i 0 < l.getD j 0 := by
  rw [List.getD_eq_getElem _ _ (by omega), List.getD_eq_getElem _ _ hj]
  have := List.pairwise_iff_get.mp h ⟨i, by omega⟩ ⟨j, hj⟩ hij
  simpa using this

/-- `np.any(valid_mask)` holds exactly when some bin is in the band. -/
theorem validMask_any (n sr : ℕ) :
    ((((List.range (n / 2 + 1)).map (fqBin n sr)).map
        (fun f => decide (1/2 ≤ f ∧ f ≤ 5))).any id = true) ↔ bandIdxs n sr ≠ [] := by
  rw [List.any_eq_true]
  constructor
  · rintro ⟨b, hb, hbid⟩
    rcases List.mem_map.mp hb with ⟨f, hf, rfl⟩
    rcases List.mem_map.mp hf with ⟨k, hk, rfl⟩
    rw [List.mem_range] at hk
    intro hnil
    have hmem : k ∈ bandIdxs n sr :=
      (mem_bandIdxs n sr k).mpr ⟨hk, by simpa [inBandB] using hbid⟩
    rw [hnil] at hmem
    simp at hmem
  · intro hne
    rcases List.exists_mem_of_ne_nil _ hne with ⟨k, hk⟩
    have h := (mem_bandIdxs n sr k).mp hk
    refine ⟨inBandB n sr k, ?_, by simp [h.2]⟩
    exact List.mem_map.mpr ⟨fqBin n sr k,
      List.mem_map.mpr ⟨k, List.mem_range.mpr h.1, rfl⟩, rfl⟩

/-- The spec's selection picks the lowest-frequency band bin attaining the
maximal in-band magnitude. -/
theorem dominantFrequencySpec_eq (fftMag : List ℚ) (n sr : ℕ)
    (hne : bandIdxs n sr ≠ []) :
    ∃ k0, k0 ∈ bandIdxs n sr ∧
      dominantFrequencySpec fftMag n sr = fqBin n sr k0 ∧
      fftMag.getD k0 0 = bandMax fftMag n sr ∧
      (∀ k ∈ bandIdxs n sr, k < k0 → fftMag.getD k 0 < bandMax fftMag n sr) := by
  unfold dominantFrequencySpec bandMax
  rw [if_neg (by simpa using hne)]
  have hmagsne : (bandIdxs n sr).map (fun k => fftMag.getD k 0) ≠ [] := by
    simpa using hne
  have hmlen : ((bandIdxs n sr).map (fun k => fftMag.getD k 0)).length =
      (bandIdxs n sr).length := by simp
  have harg : argmaxIdx ((bandIdxs n sr).map (fun k => fftMag.getD k 0)) <
      (bandIdxs n sr).length := by
    rw [← hmlen]
    exact argmaxIdx_lt_length _ hmagsne
  refine ⟨(bandIdxs n sr).getD
      (argmaxIdx ((bandIdxs n sr).map (fun k => fftMag.getD k 0))) 0,
    getD_mem_of_lt _ _ _ harg, rfl, ?_, ?_⟩
  · have h := getD_argmaxIdx _ hmagsne
    rw [getD_map_lt (fun k => fftMag.getD k 0) (bandIdxs n sr) _ harg 0 0] at h
    exact h
  · intro k hk hklt
    rcases mem_exists_getD hk 0 with ⟨j, hjlen, hjk⟩
    set m := argmaxIdx ((bandIdxs n sr).map (fun k => fftMag.getD k 0)) with hm
    have hjm : j < m := by
      rcases Nat.lt_trichotomy j m with h | h | h
      · exact h
      · exfalso
        rw [h] at hjk
        rw [hjk] at hklt
        exact lt_irrefl _ hklt
      · exfalso
        have := pairwise_lt_getD (bandIdxs_pairwise n sr) m j h hjlen
        rw [hjk] at this
        omega
    have hlt := getD_lt_of_lt_argmaxIdx _ j hjm
    rw [getD_map_lt (fun k => fftMag.getD k 0) (bandIdxs n sr) j (by omega) 0 0, hjk] at hlt
    exact hlt

/-- C4 (amended): for a moving window's magnitude spectrum (`n//2 + 1`
nonnegative bins), the dominant frequency is 0.0 when no bin is in the band
[0.5 Hz, 5.0 Hz]; it is also 0.0 when every in-band magnitude is zero (then
`np.argmax` of the zeroed spectrum returns bin 0, whose frequency is 0.0),
and otherwise it is the frequency of the bin with maximum magnitude within
the band, ties broken by lowest frequency, as the spec states. -/
theorem C4_dominant_frequency_amended (fftMag : List ℚ) (n sr : ℕ)
    (hlen : fftMag.length = n / 2 + 1) (h1 : 1 < fftMag.length)
    (hnn : ∀ x ∈ fftMag, 0 ≤ x) :
    dominantFrequency fftMag n sr =
      if bandIdxs n sr = [] then 0
      else if bandMax fftMag n sr = 0 then 0
      else dominantFrequencySpec fftMag n sr := by
  unfold dominantFrequency
  rw [if_pos h1]
  simp only []
  by_cases hband : bandIdxs n sr = []
  · rw [if_pos hband, if_neg (fun hany => ((validMask_any n sr).mp hany) hband)]
  rw [if_neg hband, if_pos ((validMask_any n sr).mpr hband)]
  have hVlen : ((List.range fftMag.length).map (fun j =>
      if (((List.range (n / 2 + 1)).map (fqBin n sr)).map
            (fun f => decide (1/2 ≤ f ∧ f ≤ 5))).getD j false = true then
        fftMag.getD j 0
      else 0)).length = fftMag.length := by simp
  have hVne : ((List.range fftMag.length).map (fun j =>
      if (((List.range (n / 2 + 1)).map (fqBin n sr)).map
            (fun f => decide (1/2 ≤ f ∧ f ≤ 5))).getD j false = true then
        fftMag.getD j 0
      else 0)) ≠ [] := by
    rw [← List.length_pos_iff_ne_nil, hVlen]
    omega
  -- every in-band magnitude is bounded by bandMax and nonnegative
  have hinband_le : ∀ k ∈ bandIdxs n sr, fftMag.getD k 0 ≤ bandMax fftMag n sr := by
    intro k hk
    exact le_listMax _ _ (List.mem_map.mpr ⟨k, hk, rfl⟩)
  have hinband_nn : ∀ k ∈ bandIdxs n sr, 0 ≤ fftMag.getD k 0 := by
    intro k hk
    have hkL : k < fftMag.length := by
      rw [hlen]
      exact ((mem_bandIdxs n sr k).mp hk).1
    exact hnn _ (getD_mem_of_lt _ _ _ hkL)
  by_cases hM : bandMax fftMag n sr = 0
  · rw [if_pos hM]
    have hall : ∀ x ∈ ((List.range fftMag.length).map (fun j =>
        if (((List.range (n / 2 + 1)).map (fqBin n sr)).map
              (fun f => decide (1/2 ≤ f ∧ f ≤ 5))).getD j false = true then
          fftMag.getD j 0
        else 0)), x = 0 := by
      intro x hx
      rcases mem_exists_getD hx 0 with ⟨k, hk, rfl⟩
      rw [hVlen] at hk
      rw [validFft_getD fftMag n sr hlen k hk]
      split
      case isTrue hin =>
        have hkb : k ∈ bandIdxs n sr := (mem_bandIdxs n sr k).mpr ⟨by omega, hin⟩
        have := hinband_le k hkb
        rw [hM] at this
        exact le_antisymm this (hinband_nn k hkb)
      case isFalse => rfl
    rw [argmaxIdx_eq_zero _ hall, getD_map_lt _ _ 0 (by simp) 0 0,
      range_getD _ _ (by omega)]
    norm_num [fqBin]
  rw [if_neg hM]
  have hMpos : 0 < bandMax fftMag n sr := by
    have hmem := listMax_mem ((bandIdxs n sr).map (fun k => fftMag.getD k 0))
      (by simpa using hband)
    rcases List.mem_map.mp hmem with ⟨k, hk, hkeq⟩
    have := hinband_nn k hk
    rw [hkeq] at this
    unfold bandMax
    rcases lt_or_eq_of_le this with h | h
    · exact h
    · exact absurd h.symm (by unfold bandMax at hM; exact hM)
  -- spec side
  rcases dominantFrequencySpec_eq fftMag n sr hband with ⟨k0, hk0mem, hspec, hk0max, hk0first⟩
  -- code side
  set V := ((List.range fftMag.length).map (fun j =>
      if (((List.range (n / 2 + 1)).map (fqBin n sr)).map
            (fun f => decide (1/2 ≤ f ∧ f ≤ 5))).getD j false = true then
        fftMag.getD j 0
      else 0)) with hV
  have hjlt : argmaxIdx V < fftMag.length := by
    have := argmaxIdx_lt_length V hVne
    rw [hVlen] at this
    exact this
  have hVmax : listMax V = bandMax fftMag n sr := by
    apply le_antisymm
    · have hmem := listMax_mem V hVne
      rcases mem_exists_getD hmem 0 with ⟨k, hk, hkeq⟩
      rw [hVlen] at hk
      rw [hV, validFft_getD fftMag n sr hlen k hk] at hkeq
      rw [← hkeq]
      split
      next hin => exact hinband_le k ((mem_bandIdxs n sr k).mpr ⟨by omega, hin⟩)
      next => exact le_of_lt hMpos
    · have hmem := listMax_mem ((bandIdxs n sr).map (fun k => fftMag.getD k 0))
        (by simpa using hband)
      rcases List.mem_map.mp hmem with ⟨k, hk, hkeq⟩
      have hkL : k < fftMag.length := by
        rw [hlen]
        exact ((mem_bandIdxs n sr k).mp hk).1
      have hVk : V.getD k 0 = bandMax fftMag n sr := by
        rw [hV, validFft_getD fftMag n sr hlen k hkL,
          if_pos ((mem_bandIdxs n sr k).mp hk).2]
        exact hkeq
      rw [← hVk]
      exact le_listMax _ _ (getD_mem_of_lt _ _ _ (by rw [hVlen]; exact hkL))
  have hVarg : V.getD (argmaxIdx V) 0 = bandMax fftMag n sr := by
    rw [getD_argmaxIdx V hVne, hVmax]
  have hjband : inBandB n sr (argmaxIdx V) = true ∧
      fftMag.getD (argmaxIdx V) 0 = bandMax fftMag n sr := by
    rw [hV, validFft_getD fftMag n sr hlen _ hjlt] at hVarg
    by_cases hin : inBandB n sr (argmaxIdx V) = true
    · rw [if_pos hin] at hVarg
      exact ⟨hin, hVarg⟩
    · rw [if_neg hin] at hVarg
      exact absurd hVarg.symm (ne_of_gt hMpos)
  have hjmem : argmaxIdx V ∈ bandIdxs n sr :=
    (mem_bandIdxs n sr _).mpr ⟨by omega, hjband.1⟩
  have heq : argmaxIdx V = k0 := by
    rcases Nat.lt_trichotomy (argmaxIdx V) k0 with h | h | h
    · exact absurd hjband.2 (ne_of_lt (hk0first _ hjmem h))
    · exact h
    · exfalso
      have hk0L : k0 < fftMag.length := by
        rw [hlen]
        exact ((mem_bandIdxs n sr k0).mp hk0mem).1
      have hlt := getD_lt_of_lt_argmaxIdx V k0 h
      rw [hVmax, hV, validFft_getD fftMag n sr hlen k0 hk0L,
        if_pos ((mem_bandIdxs n sr k0).mp hk0mem).2, hk0max] at hlt
      exact lt_irrefl _ hlt
  rw [getD_map_lt _ _ (argmaxIdx V) (by simp; omega) 0 0, range_getD _ _ (by omega),
    heq, hspec]

/-- Witness for the amended C4 at the spectrum `[0, 5, 0]` of a 4-sample
window at 4 Hz: bins 0,1,2 Hz, band bins {1, 2}, maximal in-band magnitude
5 at the 1 Hz bin; both code and spec report 1.0 Hz. -/
theorem C4_dominant_frequency_amended_witness :
    (([0, 5, 0] : List ℚ).length = 4 / 2 + 1 ∧ 1 < ([0, 5, 0] : List ℚ).length ∧
        (∀ x ∈ ([0, 5, 0] : List ℚ), 0 ≤ x)) ∧
      dominantFrequency [0, 5, 0] 4 4 =
        (if bandIdxs 4 4 = [] then 0
        else if bandMax [0, 5, 0] 4 4 = 0 then 0
        else dominantFrequencySpec [0, 5, 0] 4 4) :=
  ⟨⟨rfl, by decide, by norm_num⟩,
    C4_dominant_frequency_amended [0, 5, 0] 4 4 rfl (by decide) (by norm_num)⟩


end GaitSeg
